import Mathlib

/-!
Verification of the sparse value container (IndexArray) of sigma.collections,
shallowly embedded from `indexarray.c` and `collections.c`.

The C buffer is modelled as a `List Nat` of bytes (one entry per byte between
`bucket` and `end`).  Uninitialized memory handed out by the allocator is
modelled by a caller-supplied function `junk : Nat -> Nat` giving the byte at
each offset of a fresh region; theorems quantify over it.  The allocator is
assumed to succeed (its failure paths return early in the C and are outside
the properties considered here).  Whether an operation passed the old bucket
to `Allocator.dispose` is recorded explicitly, to state ownership properties.
-/

/-- A byte region: one list entry per byte between `bucket` and `end`. -/
abbrev Bytes := List Nat

/-- Model of `struct sc_indexarray` together with the fields of its inner
`struct sc_collection` that the sparse container uses (`array.bucket`/
`array.end` become `buffer`, plus `stride` and `owns_buffer`; the `length`
field is unused for sparse arrays). -/
structure IndexArray where
  buffer : Bytes
  stride : Nat
  next_slot : Nat
  owns_buffer : Bool
deriving Repr, DecidableEq

/-- The stride-sized byte region of slot `idx` (C: `(char *)buffer + idx * stride`). -/
def slotBytes (buf : Bytes) (idx stride : Nat) : Bytes :=
  (buf.drop (idx * stride)).take stride

/-- `is_slot_empty` (indexarray.c): a slot is empty iff every byte is zero. -/
def is_slot_empty (slot : Bytes) : Bool :=
  slot.all (fun b => b == 0)

/-- `memcpy(buf + off, data, data.length)` on the byte-list model. -/
def writeBytes (buf : Bytes) (off : Nat) (data : Bytes) : Bytes :=
  buf.take off ++ data ++ buf.drop (off + data.length)

/-- `zero_slot` (indexarray.c): `memset(slot_ptr, 0, stride)`. -/
def zero_slot (buf : Bytes) (idx stride : Nat) : Bytes :=
  writeBytes buf (idx * stride) (List.replicate stride 0)

/-- `indexarray_capacity` after its null guard: `(end - bucket) / stride`,
with 0 when `stride == 0` (matching the C guard, and Nat division by zero). -/
def indexarray_capacity (ia : IndexArray) : Nat :=
  ia.buffer.length / ia.stride

/-- The scan loop of `indexarray_add`: for `i` in `[i0, i0+fuel)` probe slot
`(next + i) % cap` and return the first probe whose bytes are all zero. -/
def findEmptySlotAux (buf : Bytes) (stride cap next : Nat) : Nat → Nat → Option Nat
  | _, 0 => none
  | i, fuel + 1 =>
    let slot_index := (next + i) % cap
    if is_slot_empty (slotBytes buf slot_index stride) then some slot_index
    else findEmptySlotAux buf stride cap next (i + 1) fuel

/-- The full circular scan of `indexarray_add` (`for i = 0; i < capacity; i++`). -/
def findEmptySlot (buf : Bytes) (stride cap next : Nat) : Option Nat :=
  findEmptySlotAux buf stride cap next 0 cap

/-- Result of `collection_grow`: the new buffer, and whether the old bucket
was passed to `Allocator.dispose`. -/
structure GrowResult where
  newBuf : Bytes
  disposed_old : Bool
deriving Repr, DecidableEq

/-- `collection_grow` (collections.c): doubles capacity (8 when growing from
0), allocates a fresh region (content given by `junk`), copies the
`stride * current_capacity` existing bytes into the low portion, and passes
the old bucket to `Allocator.dispose` unconditionally (line 200). -/
def collection_grow (buf : Bytes) (stride : Nat) (junk : Nat → Nat) : GrowResult :=
  let current_capacity := buf.length / stride
  let new_capacity := if current_capacity = 0 then 8 else current_capacity * 2
  let new_buffer := (List.range (stride * new_capacity)).map junk
  { newBuf := writeBytes new_buffer 0 (buf.take (stride * current_capacity))
    disposed_old := true }

/-- Result of `indexarray_add`: the returned handle (`-1` on failure), the
updated container, and whether a growth disposed the old bucket. -/
structure AddResult where
  handle : Int
  state : IndexArray
  disposed_old : Bool
deriving Repr, DecidableEq

/-- `indexarray_add` after its null guards: scan `capacity` slots circularly
from `next_slot`; on the first empty slot copy the value there, advance the
hint and return the slot index.  Otherwise grow, zero the region starting at
slot `new_capacity / 2` (of `new_capacity / 2` slots), write the value at slot
`new_capacity / 2`, set the hint to `new_capacity / 2 + 1` and return
`new_capacity / 2`. -/
def indexarray_add (ia : IndexArray) (value : Bytes) (junk : Nat → Nat) : AddResult :=
  let stride := ia.stride
  let capacity := indexarray_capacity ia
  let buf := ia.buffer
  match findEmptySlot buf stride capacity ia.next_slot with
  | some slot_index =>
    { handle := (slot_index : Int)
      state := { ia with
        buffer := writeBytes buf (slot_index * stride) (value.take stride)
        next_slot := (slot_index + 1) % capacity }
      disposed_old := false }
  | none =>
    let g := collection_grow buf stride junk
    let capacity2 := g.newBuf.length / stride
    let buf3 := writeBytes g.newBuf (capacity2 / 2 * stride)
      (List.replicate (capacity2 / 2 * stride) 0)
    let buf4 := writeBytes buf3 (capacity2 / 2 * stride) (value.take stride)
    { handle := ((capacity2 / 2 : Nat) : Int)
      state := { ia with buffer := buf4, next_slot := capacity2 / 2 + 1 }
      disposed_old := g.disposed_old }

/-- `indexarray_get_at` after its null guards: `none` models ERR (handle out
of range, or empty slot); `some bytes` models OK with `out_value` filled. -/
def indexarray_get_at (ia : IndexArray) (index : Nat) : Option Bytes :=
  let capacity := indexarray_capacity ia
  if capacity ≤ index then none
  else
    let slot := slotBytes ia.buffer index ia.stride
    if is_slot_empty slot then none
    else some slot

/-- `indexarray_remove_at` after its null guard: ERR (`none`) iff the index is
out of range, otherwise zero-fill the slot; the hint is not touched. -/
def indexarray_remove_at (ia : IndexArray) (index : Nat) : Option IndexArray :=
  if indexarray_capacity ia ≤ index then none
  else some { ia with buffer := zero_slot ia.buffer index ia.stride }

/-- `indexarray_is_empty_slot` after its null guard: true for out-of-range
indices, otherwise content inspection. -/
def indexarray_is_empty_slot (ia : IndexArray) (index : Nat) : Bool :=
  if indexarray_capacity ia ≤ index then true
  else is_slot_empty (slotBytes ia.buffer index ia.stride)

/-- `indexarray_new`.  Fails for stride 0; otherwise the container owns a
buffer of `capacity * stride` bytes which `indexarray_new` zero-fills.
Modelled from the spec: the bucket allocation inside `collection_new`
(`array_alloc_struct_with_bucket`, not present in this tree) yields a region
with `end = bucket + capacity * stride`; its content is irrelevant because
`indexarray_new` memsets the whole region itself. -/
def indexarray_new (capacity stride : Nat) : Option IndexArray :=
  if stride = 0 then none
  else some
    { buffer := List.replicate (capacity * stride) 0
      stride := stride
      next_slot := 0
      owns_buffer := true }

/-- `indexarray_from_buffer`: a non-owning view.  The byte region `[start,end)`
is passed as the list `ext`; the C guard `!buffer || !end || buffer >= end`
corresponds to `ext` being empty, and stride 0 is rejected. -/
def indexarray_from_buffer (ext : Bytes) (stride : Nat) : Option IndexArray :=
  if stride = 0 ∨ ext.length = 0 then none
  else some
    { buffer := ext
      stride := stride
      next_slot := 0
      owns_buffer := false }

/-- `indexarray_clear`: zero the `capacity * stride` bytes of the buffer and
reset the hint to 0. -/
def indexarray_clear (ia : IndexArray) : IndexArray :=
  { ia with
    buffer := writeBytes ia.buffer 0 (List.replicate (indexarray_capacity ia * ia.stride) 0)
    next_slot := 0 }

/-- `collection_dispose` (via `indexarray_dispose`): whether the backing
bucket is passed to `Allocator.dispose` (`owns_buffer && bucket != NULL`). -/
def collection_dispose_frees_bucket (ia : IndexArray) : Bool :=
  ia.owns_buffer && !ia.buffer.isEmpty

/-- `indexarray_add` including its null guards (`!ia || !value` yields ERR);
first component is the returned handle, second the container afterwards. -/
def indexarray_add_checked (ia : Option IndexArray) (value : Option Bytes)
    (junk : Nat → Nat) : Int × Option IndexArray :=
  match ia, value with
  | some a, some v =>
    let r := indexarray_add a v junk
    (r.handle, some r.state)
  | _, _ => (-1, ia)

/-- `indexarray_get_at` including its null guard on the container. -/
def indexarray_get_at_checked (ia : Option IndexArray) (index : Nat) : Option Bytes :=
  match ia with
  | some a => indexarray_get_at a index
  | none => none

/-- `indexarray_remove_at` including its null guard (`none` models ERR). -/
def indexarray_remove_at_checked (ia : Option IndexArray) (index : Nat) :
    Option IndexArray :=
  match ia with
  | some a => indexarray_remove_at a index
  | none => none

/-- `indexarray_capacity` including its null guard. -/
def indexarray_capacity_checked (ia : Option IndexArray) : Nat :=
  match ia with
  | some a => indexarray_capacity a
  | none => 0

/-- `indexarray_stride` including its null guard (`collection_get_stride`). -/
def indexarray_stride_checked (ia : Option IndexArray) : Nat :=
  match ia with
  | some a => a.stride
  | none => 0

/-- `indexarray_is_empty_slot` including its null guard (true for NULL). -/
def indexarray_is_empty_slot_checked (ia : Option IndexArray) (index : Nat) : Bool :=
  match ia with
  | some a => indexarray_is_empty_slot a index
  | none => true

/-- Model of `struct sparse_iterator_s` (the container and ops-table fields
are passed separately to the operations). -/
structure SparseIteratorState where
  current : Nat
  capacity : Nat
  positioned : Bool
deriving Repr, DecidableEq

/-- `sparse_iterator_new`: cursor 0, capacity snapshot, not positioned. -/
def sparse_iterator_new (ia : IndexArray) : SparseIteratorState :=
  { current := 0, capacity := indexarray_capacity ia, positioned := false }

/-- The while loop of `sparse_iter_next`: scan indices `j, j+1, ...` (at most
`fuel` of them, the loop bound being the cached capacity) for the first slot
that is not empty per the capability table. -/
def sparseNextScan (ia : IndexArray) : Nat → Nat → Option Nat
  | _, 0 => none
  | j, fuel + 1 =>
    if indexarray_is_empty_slot ia j then sparseNextScan ia (j + 1) fuel
    else some j

/-- `sparse_iter_next`: if positioned, move past the current slot; then scan
forward (bounded by the cached capacity snapshot) for the next occupied slot. -/
def sparse_iter_next (ia : IndexArray) (it : SparseIteratorState) :
    Bool × SparseIteratorState :=
  let start := if it.positioned then it.current + 1 else it.current
  match sparseNextScan ia start (it.capacity - start) with
  | some j => (true, { it with current := j, positioned := true })
  | none => (false, { it with current := max start it.capacity, positioned := false })

/-- `sparse_iter_current_index`. -/
def sparse_iter_current_index (it : SparseIteratorState) : Nat :=
  it.current

/-- `sparse_iter_current_value`: InvalidState (`none`) when not positioned,
otherwise delegates to the capability table's `get_at`. -/
def sparse_iter_current_value (ia : IndexArray) (it : SparseIteratorState) :
    Option Bytes :=
  if it.positioned then indexarray_get_at ia it.current else none

/-- `sparse_iter_reset`: cursor back to 0, positioned cleared; the capacity
snapshot is not re-taken. -/
def sparse_iter_reset (it : SparseIteratorState) : SparseIteratorState :=
  { it with current := 0, positioned := false }

/-- Drive `sparse_iter_next` up to `fuel` times, collecting the cursor at each
positioned stop, and return the visited indices with the final iterator state. -/
def runIter (ia : IndexArray) : SparseIteratorState → Nat → List Nat × SparseIteratorState
  | it, 0 => ([], it)
  | it, fuel + 1 =>
    match sparse_iter_next ia it with
    | (true, it2) =>
      let r := runIter ia it2 fuel
      (sparse_iter_current_index it2 :: r.1, r.2)
    | (false, it2) => ([], it2)

/-- The ascending list of currently occupied slot indices. -/
def occupiedIndices (ia : IndexArray) : List Nat :=
  (List.range (indexarray_capacity ia)).filter
    (fun j => !(indexarray_is_empty_slot ia j))

/-- A mutating operation issued on a container (the read-only accessors leave
the state unchanged and are represented by `getAt` / `isEmptySlot`). -/
inductive IAOp where
  | add (value : Bytes) (junk : Nat → Nat)
  | removeAt (index : Nat)
  | clear
  | getAt (index : Nat)
  | isEmptySlot (index : Nat)

/-- The container state after one operation (failed operations leave it as is). -/
def applyOp (ia : IndexArray) (op : IAOp) : IndexArray :=
  match op with
  | .add v junk => (indexarray_add ia v junk).state
  | .removeAt i =>
    match indexarray_remove_at ia i with
    | some ia2 => ia2
    | none => ia
  | .clear => indexarray_clear ia
  | .getAt _ => ia
  | .isEmptySlot _ => ia

/-- An `add` issued onto a fully occupied container (no empty slot). -/
def isGrowingAdd (ia : IndexArray) (op : IAOp) : Prop :=
  match op with
  | .add _ _ => ∀ j < indexarray_capacity ia, indexarray_is_empty_slot ia j = false
  | _ => False

/-! ### Byte-buffer lemmas -/

theorem writeBytes_length (buf data : Bytes) (off : Nat)
    (h : off + data.length ≤ buf.length) :
    (writeBytes buf off data).length = buf.length := by
  simp only [writeBytes, List.length_append, List.length_take, List.length_drop]
  omega

theorem writeBytes_getElem_lt (buf data : Bytes) (off k : Nat)
    (hk : k < off) (hoff : off ≤ buf.length) :
    (writeBytes buf off data)[k]? = buf[k]? := by
  have h1 : k < (buf.take off).length := by
    simp only [List.length_take]; omega
  simp only [writeBytes, List.append_assoc]
  rw [List.getElem?_append_left h1, List.getElem?_take_of_lt hk]

theorem writeBytes_getElem_mid (buf data : Bytes) (off k : Nat)
    (h1 : off ≤ k) (h2 : k < off + data.length) (hoff : off ≤ buf.length) :
    (writeBytes buf off data)[k]? = data[k - off]? := by
  have hlt : (buf.take off).length ≤ k := by
    simp only [List.length_take]; omega
  simp only [writeBytes, List.append_assoc]
  rw [List.getElem?_append_right hlt]
  have hk2 : k - (buf.take off).length < data.length := by
    simp only [List.length_take]; omega
  rw [List.getElem?_append_left hk2]
  congr 1
  simp only [List.length_take]
  omega

theorem writeBytes_getElem_ge (buf data : Bytes) (off k : Nat)
    (h : off + data.length ≤ k) (hoff : off ≤ buf.length) :
    (writeBytes buf off data)[k]? = buf[k]? := by
  have hlt : (buf.take off).length ≤ k := by
    simp only [List.length_take]; omega
  simp only [writeBytes, List.append_assoc]
  rw [List.getElem?_append_right hlt]
  have hge : data.length ≤ k - (buf.take off).length := by
    simp only [List.length_take]; omega
  rw [List.getElem?_append_right hge, List.getElem?_drop]
  congr 1
  simp only [List.length_take]
  omega

theorem slotBytes_getElem (buf : Bytes) (idx stride k : Nat) :
    (slotBytes buf idx stride)[k]? =
      if k < stride then buf[idx * stride + k]? else none := by
  by_cases h : k < stride
  · simp only [slotBytes, h, if_true]
    rw [List.getElem?_take_of_lt h, List.getElem?_drop]
  · simp only [slotBytes, h, if_false]
    exact List.getElem?_take_eq_none (by omega)

theorem slotBytes_length (buf : Bytes) (idx stride : Nat)
    (h : idx * stride + stride ≤ buf.length) :
    (slotBytes buf idx stride).length = stride := by
  simp only [slotBytes, List.length_take, List.length_drop]
  omega

/-- Reading back the slot just written. -/
theorem slotBytes_writeBytes_same (buf data : Bytes) (idx stride : Nat)
    (hd : data.length = stride)
    (hlen : idx * stride + stride ≤ buf.length) :
    slotBytes (writeBytes buf (idx * stride) data) idx stride = data := by
  apply List.ext_getElem?_iff.mpr
  intro k
  rw [slotBytes_getElem]
  by_cases h : k < stride
  · simp only [h, if_true]
    rw [writeBytes_getElem_mid buf data (idx * stride) (idx * stride + k)
      (by omega) (by omega) (by omega)]
    congr 1
    omega
  · simp only [h, if_false]
    exact (List.getElem?_eq_none (by omega)).symm

/-- A write entirely above a slot leaves that slot unchanged. -/
theorem slotBytes_writeBytes_above (buf data : Bytes) (off j stride : Nat)
    (h : j * stride + stride ≤ off) (hoff : off ≤ buf.length) :
    slotBytes (writeBytes buf off data) j stride = slotBytes buf j stride := by
  apply List.ext_getElem?_iff.mpr
  intro k
  rw [slotBytes_getElem, slotBytes_getElem]
  by_cases hk : k < stride
  · simp only [hk, if_true]
    exact writeBytes_getElem_lt buf data off (j * stride + k) (by omega) hoff
  · simp only [hk, if_false]

/-- A write entirely below a slot leaves that slot unchanged. -/
theorem slotBytes_writeBytes_below (buf data : Bytes) (off j stride : Nat)
    (h : off + data.length ≤ j * stride) (hoff : off ≤ buf.length) :
    slotBytes (writeBytes buf off data) j stride = slotBytes buf j stride := by
  apply List.ext_getElem?_iff.mpr
  intro k
  rw [slotBytes_getElem, slotBytes_getElem]
  by_cases hk : k < stride
  · simp only [hk, if_true]
    exact writeBytes_getElem_ge buf data off (j * stride + k) (by omega) hoff
  · simp only [hk, if_false]

theorem is_slot_empty_replicate (n : Nat) :
    is_slot_empty (List.replicate n 0) = true := by
  simp [is_slot_empty, List.all_eq_true, List.mem_replicate]

theorem slotBytes_replicate (n idx stride : Nat)
    (h : idx * stride + stride ≤ n) :
    slotBytes (List.replicate n 0) idx stride = List.replicate stride 0 := by
  apply List.ext_getElem?_iff.mpr
  intro k
  rw [slotBytes_getElem]
  by_cases hk : k < stride
  · simp only [hk, if_true]
    rw [List.getElem?_replicate, List.getElem?_replicate]
    simp only [hk, if_true, if_pos (by omega : idx * stride + k < n)]
  · simp only [hk, if_false]
    exact (List.getElem?_eq_none (by simp only [List.length_replicate]; omega)).symm

/-! ### Scan-loop characterization -/

theorem findEmptySlotAux_none_spec (buf : Bytes) (stride cap next : Nat) :
    ∀ fuel i, findEmptySlotAux buf stride cap next i fuel = none →
      ∀ k, i ≤ k → k < i + fuel →
        is_slot_empty (slotBytes buf ((next + k) % cap) stride) = false := by
  intro fuel
  induction fuel with
  | zero => intro i _ k hk1 hk2; omega
  | succ f ih =>
    intro i hnone k hk1 hk2
    simp only [findEmptySlotAux] at hnone
    by_cases hprobe : is_slot_empty (slotBytes buf ((next + i) % cap) stride) = true
    · simp only [hprobe, if_true] at hnone
      exact absurd hnone (Option.some_ne_none _)
    · simp only [hprobe, if_false] at hnone
      rcases Nat.eq_or_lt_of_le hk1 with rfl | hlt
      · exact Bool.eq_false_iff.mpr hprobe
      · exact ih (i + 1) hnone k hlt (by omega)

theorem findEmptySlotAux_some_spec (buf : Bytes) (stride cap next : Nat) :
    ∀ fuel i m, findEmptySlotAux buf stride cap next i fuel = some m →
      ∃ k, i ≤ k ∧ k < i + fuel ∧ m = (next + k) % cap ∧
        is_slot_empty (slotBytes buf m stride) = true := by
  intro fuel
  induction fuel with
  | zero => intro i m h; simp [findEmptySlotAux] at h
  | succ f ih =>
    intro i m hsome
    simp only [findEmptySlotAux] at hsome
    by_cases hprobe : is_slot_empty (slotBytes buf ((next + i) % cap) stride) = true
    · simp only [hprobe, if_true, Option.some_inj] at hsome
      exact ⟨i, le_refl i, by omega, hsome.symm, hsome ▸ hprobe⟩
    · simp only [hprobe, if_false] at hsome
      obtain ⟨k, hk1, hk2, hk3, hk4⟩ := ih (i + 1) m hsome
      exact ⟨k, by omega, by omega, hk3, hk4⟩

theorem findEmptySlotAux_some_of_exists (buf : Bytes) (stride cap next : Nat) :
    ∀ fuel i,
      (∃ k, i ≤ k ∧ k < i + fuel ∧
        is_slot_empty (slotBytes buf ((next + k) % cap) stride) = true) →
      ∃ m, findEmptySlotAux buf stride cap next i fuel = some m := by
  intro fuel
  induction fuel with
  | zero => intro i ⟨k, hk1, hk2, _⟩; omega
  | succ f ih =>
    intro i ⟨k, hk1, hk2, hk3⟩
    simp only [findEmptySlotAux]
    by_cases hprobe : is_slot_empty (slotBytes buf ((next + i) % cap) stride) = true
    · exact ⟨(next + i) % cap, by simp [hprobe]⟩
    · simp only [hprobe, if_false]
      apply ih (i + 1)
      have hne : k ≠ i := by
        intro h; exact hprobe (h ▸ hk3)
      exact ⟨k, by omega, by omega, hk3⟩

/-- The circular scan probes every residue below `cap`. -/
theorem circular_hit (cap next h : Nat) (hh : h < cap) :
    ∃ i, i < cap ∧ (next + i) % cap = h := by
  have hcap : 0 < cap := by omega
  have hn : next % cap < cap := Nat.mod_lt next hcap
  by_cases hle : next % cap ≤ h
  · refine ⟨h - next % cap, by omega, ?_⟩
    rw [Nat.add_mod]
    rw [Nat.mod_eq_of_lt (show h - next % cap < cap by omega)]
    rw [show next % cap + (h - next % cap) = h from by omega]
    exact Nat.mod_eq_of_lt hh
  · refine ⟨cap + h - next % cap, by omega, ?_⟩
    rw [Nat.add_mod]
    rw [Nat.mod_eq_of_lt (show cap + h - next % cap < cap by omega)]
    rw [show next % cap + (cap + h - next % cap) = cap + h from by omega]
    rw [Nat.add_mod_left]
    exact Nat.mod_eq_of_lt hh

theorem findEmptySlotAux_none_of_full (buf : Bytes) (stride cap next : Nat)
    (hcap : 0 < cap)
    (hfull : ∀ j < cap, is_slot_empty (slotBytes buf j stride) = false) :
    ∀ fuel i, findEmptySlotAux buf stride cap next i fuel = none := by
  intro fuel
  induction fuel with
  | zero => intro i; rfl
  | succ f ih =>
    intro i
    have hprobe := hfull ((next + i) % cap) (Nat.mod_lt _ hcap)
    simp only [findEmptySlotAux, hprobe, Bool.false_eq_true, if_false]
    exact ih (i + 1)

theorem full_of_findEmptySlot_none (buf : Bytes) (stride cap next : Nat)
    (hnone : findEmptySlot buf stride cap next = none) :
    ∀ j < cap, is_slot_empty (slotBytes buf j stride) = false := by
  intro j hj
  obtain ⟨i, hi, hip⟩ := circular_hit cap next j hj
  have := findEmptySlotAux_none_spec buf stride cap next cap 0 hnone i
    (by omega) (by omega)
  rwa [hip] at this

theorem findEmptySlot_some_facts (buf : Bytes) (stride cap next m : Nat)
    (hsome : findEmptySlot buf stride cap next = some m) :
    m < cap ∧ is_slot_empty (slotBytes buf m stride) = true := by
  have hcap : 0 < cap := by
    rcases Nat.eq_zero_or_pos cap with rfl | h
    · simp [findEmptySlot, findEmptySlotAux] at hsome
    · exact h
  obtain ⟨k, _, _, rfl, hemp⟩ :=
    findEmptySlotAux_some_spec buf stride cap next cap 0 m hsome
  exact ⟨Nat.mod_lt _ hcap, hemp⟩

theorem findEmptySlot_some_of_exists (buf : Bytes) (stride cap next j : Nat)
    (hj : j < cap) (hje : is_slot_empty (slotBytes buf j stride) = true) :
    ∃ m, findEmptySlot buf stride cap next = some m := by
  obtain ⟨i, hi, hip⟩ := circular_hit cap next j hj
  exact findEmptySlotAux_some_of_exists buf stride cap next cap 0
    ⟨i, by omega, by omega, by rw [hip]; exact hje⟩

theorem findEmptySlot_unique (buf : Bytes) (stride cap next h : Nat)
    (hh : h < cap) (hhe : is_slot_empty (slotBytes buf h stride) = true)
    (hone : ∀ j < cap, j ≠ h → is_slot_empty (slotBytes buf j stride) = false) :
    findEmptySlot buf stride cap next = some h := by
  obtain ⟨m, hm⟩ := findEmptySlot_some_of_exists buf stride cap next h hh hhe
  obtain ⟨hmcap, hme⟩ := findEmptySlot_some_facts buf stride cap next m hm
  rcases eq_or_ne m h with rfl | hne
  · exact hm
  · rw [hone m hmcap hne] at hme
    exact absurd hme (by simp)

/-! ### Growth lemmas -/

theorem grow_newBuf_length (buf : Bytes) (stride : Nat) (junk : Nat → Nat) :
    (collection_grow buf stride junk).newBuf.length =
      stride * (if buf.length / stride = 0 then 8 else buf.length / stride * 2) := by
  have hd : stride * (buf.length / stride) ≤ buf.length := by
    rw [Nat.mul_comm]
    exact Nat.div_mul_le_self _ _
  have hle : buf.length / stride ≤
      (if buf.length / stride = 0 then 8 else buf.length / stride * 2) := by
    split <;> omega
  simp only [collection_grow, writeBytes, List.length_append, List.length_take,
    List.length_drop, List.length_map, List.length_range]
  have h2 : stride * (buf.length / stride) ≤
      stride * (if buf.length / stride = 0 then 8 else buf.length / stride * 2) :=
    Nat.mul_le_mul_left stride hle
  omega

theorem grow_slot_low (buf : Bytes) (stride : Nat) (junk : Nat → Nat) (j : Nat)
    (hj : j * stride + stride ≤ stride * (buf.length / stride)) :
    slotBytes (collection_grow buf stride junk).newBuf j stride =
      slotBytes buf j stride := by
  have hd : stride * (buf.length / stride) ≤ buf.length := by
    rw [Nat.mul_comm]
    exact Nat.div_mul_le_self _ _
  have htk : (buf.take (stride * (buf.length / stride))).length =
      stride * (buf.length / stride) := by
    simp only [List.length_take]
    omega
  apply List.ext_getElem?_iff.mpr
  intro k
  rw [slotBytes_getElem, slotBytes_getElem]
  by_cases hk : k < stride
  · simp only [hk, if_true, collection_grow]
    rw [writeBytes_getElem_mid _ _ 0 (j * stride + k) (by omega)
      (by rw [htk]; omega) (by omega)]
    rw [Nat.sub_zero, List.getElem?_take_of_lt (by omega)]
  · simp only [hk, if_false]

/-! ### Behaviour of `indexarray_add` on each branch -/

theorem indexarray_add_found (ia : IndexArray) (value : Bytes) (junk : Nat → Nat)
    (m : Nat)
    (hfind : findEmptySlot ia.buffer ia.stride (indexarray_capacity ia) ia.next_slot
      = some m) :
    indexarray_add ia value junk =
      { handle := (m : Int)
        state := { ia with
          buffer := writeBytes ia.buffer (m * ia.stride) (value.take ia.stride)
          next_slot := (m + 1) % indexarray_capacity ia }
        disposed_old := false } := by
  simp only [indexarray_add, hfind]

theorem indexarray_add_grow (ia : IndexArray) (value : Bytes) (junk : Nat → Nat)
    (hfind : findEmptySlot ia.buffer ia.stride (indexarray_capacity ia) ia.next_slot
      = none) :
    indexarray_add ia value junk =
      { handle :=
          (((collection_grow ia.buffer ia.stride junk).newBuf.length / ia.stride / 2
            : Nat) : Int)
        state := { ia with
          buffer := writeBytes
            (writeBytes (collection_grow ia.buffer ia.stride junk).newBuf
              ((collection_grow ia.buffer ia.stride junk).newBuf.length / ia.stride / 2
                * ia.stride)
              (List.replicate
                ((collection_grow ia.buffer ia.stride junk).newBuf.length / ia.stride / 2
                  * ia.stride) 0))
            ((collection_grow ia.buffer ia.stride junk).newBuf.length / ia.stride / 2
              * ia.stride)
            (value.take ia.stride)
          next_slot :=
            (collection_grow ia.buffer ia.stride junk).newBuf.length / ia.stride / 2 + 1 }
        disposed_old := (collection_grow ia.buffer ia.stride junk).disposed_old } := by
  simp only [indexarray_add, hfind]

theorem add_found_spec (ia : IndexArray) (value : Bytes) (junk : Nat → Nat) (m : Nat)
    (hv : value.length = ia.stride)
    (hfind : findEmptySlot ia.buffer ia.stride (indexarray_capacity ia) ia.next_slot
      = some m) :
    (indexarray_add ia value junk).handle = (m : Int) ∧
    (indexarray_add ia value junk).state.stride = ia.stride ∧
    (indexarray_add ia value junk).state.buffer.length = ia.buffer.length ∧
    slotBytes (indexarray_add ia value junk).state.buffer m ia.stride = value ∧
    (∀ j, j ≠ m → slotBytes (indexarray_add ia value junk).state.buffer j ia.stride
      = slotBytes ia.buffer j ia.stride) ∧
    m < indexarray_capacity ia ∧
    (indexarray_add ia value junk).state.next_slot = (m + 1) % indexarray_capacity ia ∧
    (indexarray_add ia value junk).disposed_old = false := by
  obtain ⟨hmcap, _⟩ := findEmptySlot_some_facts _ _ _ _ _ hfind
  have htake : value.take ia.stride = value := by
    rw [← hv]; exact List.take_length value
  have hmlen : m * ia.stride + ia.stride ≤ ia.buffer.length := by
    have h1 : (m + 1) * ia.stride ≤ indexarray_capacity ia * ia.stride :=
      Nat.mul_le_mul_right _ hmcap
    have h2 : indexarray_capacity ia * ia.stride ≤ ia.buffer.length :=
      Nat.div_mul_le_self _ _
    rw [Nat.add_mul, Nat.one_mul] at h1
    omega
  rw [indexarray_add_found ia value junk m hfind]
  refine ⟨rfl, rfl, ?_, ?_, ?_, hmcap, rfl, rfl⟩
  · exact writeBytes_length _ _ _ (by rw [htake, hv]; omega)
  · rw [htake]
    exact slotBytes_writeBytes_same _ _ _ _ hv hmlen
  · intro j hj
    rw [htake]
    rcases Nat.lt_or_ge j m with hlt | hge
    · apply slotBytes_writeBytes_above
      · have h3 : (j + 1) * ia.stride ≤ m * ia.stride := Nat.mul_le_mul_right _ hlt
        rw [Nat.add_mul, Nat.one_mul] at h3
        omega
      · omega
    · have hgt : m < j := by omega
      apply slotBytes_writeBytes_below
      · have h3 : (m + 1) * ia.stride ≤ j * ia.stride := Nat.mul_le_mul_right _ hgt
        rw [Nat.add_mul, Nat.one_mul] at h3
        rw [hv]
        omega
      · omega

/-- A slot lying entirely inside a zero-filled write region reads as zeros. -/
theorem slotBytes_writeBytes_inside_replicate (buf : Bytes) (off n j stride : Nat)
    (h1 : off ≤ j * stride) (h2 : j * stride + stride ≤ off + n)
    (hoff : off ≤ buf.length) :
    slotBytes (writeBytes buf off (List.replicate n 0)) j stride
      = List.replicate stride 0 := by
  apply List.ext_getElem?_iff.mpr
  intro k
  rw [slotBytes_getElem]
  by_cases hk : k < stride
  · simp only [hk, if_true]
    rw [writeBytes_getElem_mid buf _ off (j * stride + k) (by omega)
      (by simp only [List.length_replicate]; omega) hoff]
    rw [List.getElem?_replicate, List.getElem?_replicate]
    simp only [if_pos (show j * stride + k - off < n by omega), if_pos hk]
  · simp only [hk, if_false]
    exact (List.getElem?_eq_none (by simp only [List.length_replicate]; omega)).symm

/-- Capacity of a container after replacing buffer and hint. -/
theorem capacity_set_buffer (ia : IndexArray) (b : Bytes) (n : Nat) :
    indexarray_capacity { ia with buffer := b, next_slot := n }
      = b.length / ia.stride := rfl

theorem add_grow_spec (ia : IndexArray) (value : Bytes) (junk : Nat → Nat)
    (hs : 0 < ia.stride) (hv : value.length = ia.stride)
    (hcap : 0 < indexarray_capacity ia)
    (hfind : findEmptySlot ia.buffer ia.stride (indexarray_capacity ia) ia.next_slot
      = none) :
    (indexarray_add ia value junk).handle = ((indexarray_capacity ia : Nat) : Int) ∧
    (indexarray_add ia value junk).state.stride = ia.stride ∧
    indexarray_capacity (indexarray_add ia value junk).state
      = 2 * indexarray_capacity ia ∧
    (indexarray_add ia value junk).state.next_slot = indexarray_capacity ia + 1 ∧
    slotBytes (indexarray_add ia value junk).state.buffer (indexarray_capacity ia)
      ia.stride = value ∧
    (∀ j, indexarray_capacity ia < j → j < 2 * indexarray_capacity ia →
      slotBytes (indexarray_add ia value junk).state.buffer j ia.stride
        = List.replicate ia.stride 0) ∧
    (∀ j, j < indexarray_capacity ia →
      slotBytes (indexarray_add ia value junk).state.buffer j ia.stride
        = slotBytes ia.buffer j ia.stride) ∧
    (indexarray_add ia value junk).disposed_old = true := by
  have hcapeq : indexarray_capacity ia = ia.buffer.length / ia.stride := rfl
  have hne : ¬ (ia.buffer.length / ia.stride = 0) := by rw [← hcapeq]; omega
  have hlen : (collection_grow ia.buffer ia.stride junk).newBuf.length
      = ia.stride * (indexarray_capacity ia * 2) := by
    rw [grow_newBuf_length, if_neg hne, hcapeq]
  have hA : ia.stride * (indexarray_capacity ia * 2)
      = indexarray_capacity ia * ia.stride + indexarray_capacity ia * ia.stride := by
    ring
  have hscap : ia.stride ≤ indexarray_capacity ia * ia.stride := by
    have h1 : 1 * ia.stride ≤ indexarray_capacity ia * ia.stride :=
      Nat.mul_le_mul_right _ hcap
    rw [Nat.one_mul] at h1
    exact h1
  have hLdiv : (collection_grow ia.buffer ia.stride junk).newBuf.length / ia.stride
      = indexarray_capacity ia * 2 := by
    rw [hlen, Nat.mul_div_cancel_left _ hs]
  have hhalf : (collection_grow ia.buffer ia.stride junk).newBuf.length / ia.stride / 2
      = indexarray_capacity ia := by
    rw [hLdiv, Nat.mul_div_cancel _ (by norm_num)]
  have htake : value.take ia.stride = value := by
    rw [← hv]; exact List.take_length value
  have hlen3 : (writeBytes (collection_grow ia.buffer ia.stride junk).newBuf
      (indexarray_capacity ia * ia.stride)
      (List.replicate (indexarray_capacity ia * ia.stride) 0)).length
      = ia.stride * (indexarray_capacity ia * 2) := by
    rw [writeBytes_length, hlen]
    rw [List.length_replicate, hlen]
    omega
  rw [indexarray_add_grow ia value junk hfind]
  refine ⟨by rw [hhalf], rfl, ?_, by rw [hhalf], ?_, ?_, ?_, rfl⟩
  · simp only [hhalf, htake]
    rw [capacity_set_buffer]
    rw [writeBytes_length]
    · rw [hlen3, Nat.mul_div_cancel_left _ hs]
      omega
    · rw [hv, hlen3]
      omega
  · simp only [hhalf, htake]
    apply slotBytes_writeBytes_same _ _ _ _ hv
    rw [hlen3]
    omega
  · intro j hj1 hj2
    simp only [hhalf, htake]
    have hj1a : (indexarray_capacity ia + 1) * ia.stride ≤ j * ia.stride :=
      Nat.mul_le_mul_right _ (by omega)
    have hj2a : (j + 1) * ia.stride ≤ (2 * indexarray_capacity ia) * ia.stride :=
      Nat.mul_le_mul_right _ (by omega)
    have hC : (2 * indexarray_capacity ia) * ia.stride
        = indexarray_capacity ia * ia.stride + indexarray_capacity ia * ia.stride := by
      ring
    rw [Nat.add_mul, Nat.one_mul] at hj1a hj2a
    rw [slotBytes_writeBytes_below _ _ _ _ _ (by rw [hv]; omega)
      (by rw [hlen3]; omega)]
    apply slotBytes_writeBytes_inside_replicate
    · omega
    · omega
    · rw [hlen]
      omega
  · intro j hj
    simp only [hhalf, htake]
    have hja : (j + 1) * ia.stride ≤ indexarray_capacity ia * ia.stride :=
      Nat.mul_le_mul_right _ hj
    rw [Nat.add_mul, Nat.one_mul] at hja
    rw [slotBytes_writeBytes_above _ _ _ _ _ (by omega) (by rw [hlen3]; omega)]
    rw [slotBytes_writeBytes_above _ _ _ _ _ (by omega) (by rw [hlen]; omega)]
    apply grow_slot_low
    rw [← hcapeq]
    have hD : ia.stride * indexarray_capacity ia = indexarray_capacity ia * ia.stride :=
      Nat.mul_comm _ _
    omega

theorem add_grow_from_zero_spec (ia : IndexArray) (value : Bytes) (junk : Nat → Nat)
    (hs : 0 < ia.stride) (hv : value.length = ia.stride)
    (hcap : indexarray_capacity ia = 0) :
    (indexarray_add ia value junk).handle = (4 : Int) ∧
    (indexarray_add ia value junk).state.stride = ia.stride ∧
    indexarray_capacity (indexarray_add ia value junk).state = 8 ∧
    (indexarray_add ia value junk).state.next_slot = 5 ∧
    slotBytes (indexarray_add ia value junk).state.buffer 4 ia.stride = value := by
  have hcapeq : indexarray_capacity ia = ia.buffer.length / ia.stride := rfl
  have hfind : findEmptySlot ia.buffer ia.stride (indexarray_capacity ia) ia.next_slot
      = none := by
    rw [hcap]; rfl
  have hlen : (collection_grow ia.buffer ia.stride junk).newBuf.length
      = ia.stride * 8 := by
    rw [grow_newBuf_length, if_pos (by rw [← hcapeq]; exact hcap)]
  have hB : ia.stride * 8 = 4 * ia.stride + 4 * ia.stride := by ring
  have hLdiv : (collection_grow ia.buffer ia.stride junk).newBuf.length / ia.stride
      = 8 := by
    rw [hlen, Nat.mul_div_cancel_left _ hs]
  have hhalf : (collection_grow ia.buffer ia.stride junk).newBuf.length / ia.stride / 2
      = 4 := by
    rw [hLdiv]
  have htake : value.take ia.stride = value := by
    rw [← hv]; exact List.take_length value
  have hlen3 : (writeBytes (collection_grow ia.buffer ia.stride junk).newBuf
      (4 * ia.stride) (List.replicate (4 * ia.stride) 0)).length
      = ia.stride * 8 := by
    rw [writeBytes_length, hlen]
    rw [List.length_replicate, hlen]
    omega
  rw [indexarray_add_grow ia value junk hfind]
  refine ⟨by rw [hhalf]; rfl, rfl, ?_, by rw [hhalf], ?_⟩
  · simp only [hhalf, htake]
    rw [capacity_set_buffer]
    rw [writeBytes_length]
    · rw [hlen3, Nat.mul_div_cancel_left _ hs]
    · rw [hv, hlen3]
      omega
  · simp only [hhalf, htake]
    apply slotBytes_writeBytes_same _ _ _ _ hv
    rw [hlen3]
    omega

/-! ### `get_at` helpers -/

theorem indexarray_get_at_some (ia : IndexArray) (h : Nat) (v : Bytes)
    (hcap : h < indexarray_capacity ia)
    (hslot : slotBytes ia.buffer h ia.stride = v)
    (hne : is_slot_empty v = false) :
    indexarray_get_at ia h = some v := by
  simp only [indexarray_get_at]
  rw [if_neg (by omega), hslot, hne]
  simp

theorem indexarray_get_at_inv (ia : IndexArray) (h : Nat) (v : Bytes)
    (hget : indexarray_get_at ia h = some v) :
    h < indexarray_capacity ia ∧ slotBytes ia.buffer h ia.stride = v ∧
    is_slot_empty (slotBytes ia.buffer h ia.stride) = false := by
  by_cases h1 : indexarray_capacity ia ≤ h
  · simp [indexarray_get_at, h1] at hget
  · by_cases h2 : is_slot_empty (slotBytes ia.buffer h ia.stride) = true
    · simp [indexarray_get_at, h1, h2] at hget
    · refine ⟨by omega, ?_, by simpa using h2⟩
      simpa [indexarray_get_at, h1, h2] using hget

theorem capacity_congr (ia2 ia : IndexArray)
    (hlen : ia2.buffer.length = ia.buffer.length) (hstr : ia2.stride = ia.stride) :
    indexarray_capacity ia2 = indexarray_capacity ia := by
  unfold indexarray_capacity
  rw [hlen, hstr]

/-! ### C1: round trip -/

/-- C1 (amended): for every container freshly created with a valid stride and
every stride-sized value that is not all-zero, `add` accepts the value and
`get_at` on the returned handle yields exactly the inserted bytes.  (The
all-zero-value case is the counterexample to the claim as stated; see
`C1_counterexample`.) -/
theorem C1_round_trip_nonzero_value (capacity stride : Nat) (value : Bytes)
    (junk : Nat → Nat) (ia : IndexArray)
    (hnew : indexarray_new capacity stride = some ia)
    (hv : value.length = stride)
    (hnz : is_slot_empty value = false) :
    0 ≤ (indexarray_add ia value junk).handle ∧
    indexarray_get_at (indexarray_add ia value junk).state
      (indexarray_add ia value junk).handle.toNat = some value := by
  rw [indexarray_new] at hnew
  by_cases h0 : stride = 0
  · simp [h0] at hnew
  · rw [if_neg h0] at hnew
    have hia : ia = ⟨List.replicate (capacity * stride) 0, stride, 0, true⟩ :=
      (Option.some_inj.mp hnew).symm
    subst hia
    have hspos : 0 < stride := Nat.pos_of_ne_zero h0
    set ia : IndexArray := ⟨List.replicate (capacity * stride) 0, stride, 0, true⟩
      with hiadef
    have hcapia : indexarray_capacity ia = capacity := by
      unfold indexarray_capacity
      simp only [hiadef, List.length_replicate]
      exact Nat.mul_div_cancel _ hspos
    rcases Nat.eq_zero_or_pos capacity with hc0 | hcpos
    · obtain ⟨hh, hstr, hcap8, _, hslot⟩ :=
        add_grow_from_zero_spec ia value junk hspos hv (by rw [hcapia, hc0])
      constructor
      · rw [hh]
        norm_num
      · have htn : (indexarray_add ia value junk).handle.toNat = 4 := by
          rw [hh]; rfl
        rw [htn]
        apply indexarray_get_at_some _ _ _ (by rw [hcap8]; omega)
        · rw [hstr]
          exact hslot
        · exact hnz
    · have hslot0 : is_slot_empty (slotBytes ia.buffer 0 ia.stride) = true := by
        show is_slot_empty (slotBytes (List.replicate (capacity * stride) 0) 0 stride)
          = true
        rw [slotBytes_replicate]
        · exact is_slot_empty_replicate stride
        · have h1 : 1 * stride ≤ capacity * stride := Nat.mul_le_mul_right _ hcpos
          omega
      obtain ⟨m, hm⟩ := findEmptySlot_some_of_exists ia.buffer ia.stride
        (indexarray_capacity ia) ia.next_slot 0 (by rw [hcapia]; omega) hslot0
      obtain ⟨hh, hstr, hlen, hslot, _, hmcap, _, _⟩ :=
        add_found_spec ia value junk m hv hm
      constructor
      · rw [hh]
        exact Int.ofNat_zero_le m
      · have htn : (indexarray_add ia value junk).handle.toNat = m := by
          rw [hh]; rfl
        rw [htn]
        apply indexarray_get_at_some
        · rw [capacity_congr _ ia hlen hstr]
          exact hmcap
        · rw [hstr]
          exact hslot
        · exact hnz

/-- C1 counterexample: the claim as stated quantifies over every stride-sized
value.  The all-zero value is accepted by `add` (handle 0 is returned) on a
fresh 1-slot container, yet `get_at` on that handle fails, so the round trip
does not hold for it. -/
theorem C1_counterexample :
    indexarray_new 1 1 = some ⟨[0], 1, 0, true⟩ ∧
    ([(0 : Nat)] : Bytes).length = 1 ∧
    (indexarray_add ⟨[0], 1, 0, true⟩ [0] (fun _ => 0)).handle = 0 ∧
    indexarray_get_at (indexarray_add ⟨[0], 1, 0, true⟩ [0] (fun _ => 0)).state 0
      = none ∧
    indexarray_get_at (indexarray_add ⟨[0], 1, 0, true⟩ [0] (fun _ => 0)).state 0
      ≠ some [0] := by
  refine ⟨by decide, by decide, by decide, by decide, by decide⟩

/-- C1 witness: instantiation of `C1_round_trip_nonzero_value` at
capacity 2, stride 1, value `[7]`. -/
theorem C1_witness :
    indexarray_new 2 1 = some ⟨[0, 0], 1, 0, true⟩ ∧
    ([(7 : Nat)] : Bytes).length = 1 ∧
    is_slot_empty [(7 : Nat)] = false ∧
    (0 ≤ (indexarray_add ⟨[0, 0], 1, 0, true⟩ [7] (fun _ => 0)).handle ∧
     indexarray_get_at (indexarray_add ⟨[0, 0], 1, 0, true⟩ [7] (fun _ => 0)).state
       (indexarray_add ⟨[0, 0], 1, 0, true⟩ [7] (fun _ => 0)).handle.toNat
       = some [7]) :=
  ⟨by decide, by decide, by decide,
    C1_round_trip_nonzero_value 2 1 [7] (fun _ => 0) _ (by decide) (by decide)
      (by decide)⟩

/-! ### C2: growth behaviour on a full container -/

/-- C2 (amended): on a fully occupied container of nonzero capacity, `add`
doubles the capacity, zeroes the newly added upper half, writes the value at
index = old capacity, sets the hint to old capacity + 1 and returns old
capacity as the handle.  (For a zero-capacity container the claim fails:
see `C2_counterexample`.) -/
theorem C2_grow_on_full (ia : IndexArray) (value : Bytes) (junk : Nat → Nat)
    (hs : 0 < ia.stride) (hv : value.length = ia.stride)
    (hcap : 0 < indexarray_capacity ia)
    (hfull : ∀ j < indexarray_capacity ia, indexarray_is_empty_slot ia j = false) :
    (indexarray_add ia value junk).handle = ((indexarray_capacity ia : Nat) : Int) ∧
    indexarray_capacity (indexarray_add ia value junk).state
      = 2 * indexarray_capacity ia ∧
    (indexarray_add ia value junk).state.next_slot = indexarray_capacity ia + 1 ∧
    slotBytes (indexarray_add ia value junk).state.buffer (indexarray_capacity ia)
      ia.stride = value ∧
    (∀ j, indexarray_capacity ia < j → j < 2 * indexarray_capacity ia →
      indexarray_is_empty_slot (indexarray_add ia value junk).state j = true) := by
  have hfull2 : ∀ j < indexarray_capacity ia,
      is_slot_empty (slotBytes ia.buffer j ia.stride) = false := by
    intro j hj
    have hx := hfull j hj
    rwa [indexarray_is_empty_slot, if_neg (by omega)] at hx
  have hfind : findEmptySlot ia.buffer ia.stride (indexarray_capacity ia)
      ia.next_slot = none :=
    findEmptySlotAux_none_of_full ia.buffer ia.stride _ ia.next_slot hcap hfull2
      (indexarray_capacity ia) 0
  obtain ⟨hh, hstr, hcap2, hnext, hslot, hupper, _, _⟩ :=
    add_grow_spec ia value junk hs hv hcap hfind
  refine ⟨hh, hcap2, hnext, hslot, ?_⟩
  intro j hj1 hj2
  rw [indexarray_is_empty_slot, if_neg (by rw [hcap2]; omega)]
  rw [hstr, hupper j hj1 hj2]
  exact is_slot_empty_replicate _

/-- C2 counterexample: a zero-capacity container (a view over a region smaller
than one stride) vacuously has no empty slot, yet the growth path of `add`
returns handle 4 (= new capacity 8 / 2) and sets the hint to 5, not handle 0
and hint 1 as the claim states for old capacity 0. -/
theorem C2_counterexample :
    indexarray_from_buffer [7] 8 = some ⟨[7], 8, 0, false⟩ ∧
    indexarray_capacity ⟨[7], 8, 0, false⟩ = 0 ∧
    findEmptySlot ([7] : Bytes) 8 (indexarray_capacity ⟨[7], 8, 0, false⟩) 0
      = none ∧
    (indexarray_add ⟨[7], 8, 0, false⟩ (List.replicate 8 1) (fun _ => 0)).handle
      = 4 ∧
    (indexarray_add ⟨[7], 8, 0, false⟩ (List.replicate 8 1) (fun _ => 0)).handle
      ≠ ((indexarray_capacity ⟨[7], 8, 0, false⟩ : Nat) : Int) ∧
    (indexarray_add ⟨[7], 8, 0, false⟩ (List.replicate 8 1)
      (fun _ => 0)).state.next_slot = 5 := by
  refine ⟨by decide, by decide, by decide, by decide, by decide, by decide⟩

/-- C2 witness: instantiation of `C2_grow_on_full` at a full 1-slot container. -/
theorem C2_witness :
    0 < indexarray_capacity ⟨[1], 1, 0, true⟩ ∧
    (∀ j < indexarray_capacity ⟨[1], 1, 0, true⟩,
      indexarray_is_empty_slot ⟨[1], 1, 0, true⟩ j = false) ∧
    ((indexarray_add ⟨[1], 1, 0, true⟩ [2] (fun _ => 0)).handle
      = ((indexarray_capacity ⟨[1], 1, 0, true⟩ : Nat) : Int) ∧
     indexarray_capacity (indexarray_add ⟨[1], 1, 0, true⟩ [2] (fun _ => 0)).state
      = 2 * indexarray_capacity ⟨[1], 1, 0, true⟩ ∧
     (indexarray_add ⟨[1], 1, 0, true⟩ [2] (fun _ => 0)).state.next_slot
      = indexarray_capacity ⟨[1], 1, 0, true⟩ + 1 ∧
     slotBytes (indexarray_add ⟨[1], 1, 0, true⟩ [2] (fun _ => 0)).state.buffer
      (indexarray_capacity ⟨[1], 1, 0, true⟩) (⟨[1], 1, 0, true⟩ : IndexArray).stride
      = [2] ∧
     (∀ j, indexarray_capacity ⟨[1], 1, 0, true⟩ < j →
        j < 2 * indexarray_capacity ⟨[1], 1, 0, true⟩ →
        indexarray_is_empty_slot
          (indexarray_add ⟨[1], 1, 0, true⟩ [2] (fun _ => 0)).state j = true)) :=
  ⟨by decide, by decide,
    C2_grow_on_full ⟨[1], 1, 0, true⟩ [2] (fun _ => 0) (by decide) (by decide)
      (by decide) (by decide)⟩

/-! ### C3: growth releases the old region even for non-owning views -/

/-- C3: the claim states the old region is released only when owned, and that
no operation on a view ever releases the external memory.  The code violates
this: `collection_grow` passes the old bucket to `Allocator.dispose`
unconditionally (collections.c line 200), so an `add` that triggers growth on
a full non-owning view disposes the caller-supplied buffer.  (`dispose` itself
does honour the ownership flag, as the last conjunct records.) -/
theorem C3_grow_disposes_unowned_view :
    indexarray_from_buffer [5] 1 = some ⟨[5], 1, 0, false⟩ ∧
    (⟨[5], 1, 0, false⟩ : IndexArray).owns_buffer = false ∧
    findEmptySlot ([5] : Bytes) 1 (indexarray_capacity ⟨[5], 1, 0, false⟩) 0
      = none ∧
    (collection_grow ([5] : Bytes) 1 (fun _ => 0)).disposed_old = true ∧
    (indexarray_add ⟨[5], 1, 0, false⟩ [7] (fun _ => 0)).disposed_old = true ∧
    collection_dispose_frees_bucket ⟨[5], 1, 0, false⟩ = false := by
  refine ⟨by decide, by decide, by decide, by decide, by decide, by decide⟩

/-! ### C4: handle stability across growth -/

/-- C4: when every slot is occupied (so that the next `add` triggers growth),
every handle retrievable before the growth is still retrievable afterwards
with the same bytes. -/
theorem C4_handle_stability (ia : IndexArray) (value v : Bytes) (junk : Nat → Nat)
    (h : Nat)
    (hs : 0 < ia.stride) (hv : value.length = ia.stride)
    (hfull : ∀ j < indexarray_capacity ia, indexarray_is_empty_slot ia j = false)
    (hget : indexarray_get_at ia h = some v) :
    indexarray_get_at (indexarray_add ia value junk).state h = some v := by
  obtain ⟨hhcap, hslot, hne⟩ := indexarray_get_at_inv ia h v hget
  have hcap : 0 < indexarray_capacity ia := by omega
  have hfull2 : ∀ j < indexarray_capacity ia,
      is_slot_empty (slotBytes ia.buffer j ia.stride) = false := by
    intro j hj
    have hx := hfull j hj
    rwa [indexarray_is_empty_slot, if_neg (by omega)] at hx
  have hfind : findEmptySlot ia.buffer ia.stride (indexarray_capacity ia)
      ia.next_slot = none :=
    findEmptySlotAux_none_of_full ia.buffer ia.stride _ ia.next_slot hcap hfull2
      (indexarray_capacity ia) 0
  obtain ⟨_, hstr, hcap2, _, _, _, hlow, _⟩ :=
    add_grow_spec ia value junk hs hv hcap hfind
  apply indexarray_get_at_some
  · rw [hcap2]
    omega
  · rw [hstr, hlow h hhcap]
    exact hslot
  · rw [hslot] at hne
    exact hne

/-- C4 witness: instantiation of `C4_handle_stability` on a full 2-slot
container, checking handle 0 after the growing add. -/
theorem C4_witness :
    0 < (⟨[1, 2], 1, 1, true⟩ : IndexArray).stride ∧
    ([(3 : Nat)] : Bytes).length = (⟨[1, 2], 1, 1, true⟩ : IndexArray).stride ∧
    (∀ j < indexarray_capacity ⟨[1, 2], 1, 1, true⟩,
      indexarray_is_empty_slot ⟨[1, 2], 1, 1, true⟩ j = false) ∧
    indexarray_get_at ⟨[1, 2], 1, 1, true⟩ 0 = some [1] ∧
    indexarray_get_at (indexarray_add ⟨[1, 2], 1, 1, true⟩ [3] (fun _ => 0)).state 0
      = some [1] :=
  ⟨by decide, by decide, by decide, by decide,
    C4_handle_stability ⟨[1, 2], 1, 1, true⟩ [3] [1] (fun _ => 0) 0 (by decide)
      (by decide) (by decide) (by decide)⟩

/-! ### C6: slot reuse -/

theorem indexarray_get_at_none_of_empty (ia : IndexArray) (h : Nat)
    (he : is_slot_empty (slotBytes ia.buffer h ia.stride) = true) :
    indexarray_get_at ia h = none := by
  simp [indexarray_get_at, he]

theorem stride_pos_of_capacity_pos (ia : IndexArray)
    (hcap : 0 < indexarray_capacity ia) : 0 < ia.stride := by
  by_contra h0
  push_neg at h0
  have hz : ia.stride = 0 := by omega
  rw [indexarray_capacity, hz, Nat.div_zero] at hcap
  exact absurd hcap (lt_irrefl 0)

/-- C6 (amended): on a fully occupied container, removing handle `h` and then
performing a single `add` returns `h` again (after the removal, `h` is the
only empty slot, so the circular scan must land on it).  On a container that
still has other empty slots the claim as stated fails: see
`C6_counterexample`. -/
theorem C6_slot_reuse_full (ia : IndexArray) (h : Nat) (value : Bytes)
    (junk : Nat → Nat)
    (hfull : ∀ j < indexarray_capacity ia, indexarray_is_empty_slot ia j = false)
    (hh : h < indexarray_capacity ia) :
    ∃ ia2, indexarray_remove_at ia h = some ia2 ∧
      (indexarray_add ia2 value junk).handle = (h : Int) := by
  have hcap : 0 < indexarray_capacity ia := by omega
  have hspos : 0 < ia.stride := stride_pos_of_capacity_pos ia hcap
  have hfull2 : ∀ j < indexarray_capacity ia,
      is_slot_empty (slotBytes ia.buffer j ia.stride) = false := by
    intro j hj
    have hx := hfull j hj
    rwa [indexarray_is_empty_slot, if_neg (by omega)] at hx
  have hrem : indexarray_remove_at ia h
      = some { ia with buffer := zero_slot ia.buffer h ia.stride } := by
    rw [indexarray_remove_at, if_neg (by omega)]
  refine ⟨_, hrem, ?_⟩
  set ia2 : IndexArray := { ia with buffer := zero_slot ia.buffer h ia.stride }
    with hia2
  have hhlen : h * ia.stride + ia.stride ≤ ia.buffer.length := by
    have h1 : (h + 1) * ia.stride ≤ indexarray_capacity ia * ia.stride :=
      Nat.mul_le_mul_right _ hh
    have h2 : indexarray_capacity ia * ia.stride ≤ ia.buffer.length :=
      Nat.div_mul_le_self _ _
    rw [Nat.add_mul, Nat.one_mul] at h1
    omega
  have hlen2 : ia2.buffer.length = ia.buffer.length := by
    rw [hia2]
    exact writeBytes_length _ _ _ (by simp only [List.length_replicate]; omega)
  have hcap2 : indexarray_capacity ia2 = indexarray_capacity ia :=
    capacity_congr ia2 ia hlen2 rfl
  have hslot_h : slotBytes ia2.buffer h ia.stride = List.replicate ia.stride 0 := by
    rw [hia2]
    exact slotBytes_writeBytes_same _ _ _ _ (List.length_replicate _ _) hhlen
  have hslot_other : ∀ j < indexarray_capacity ia, j ≠ h →
      is_slot_empty (slotBytes ia2.buffer j ia.stride) = false := by
    intro j hj hne
    have hpres : slotBytes ia2.buffer j ia.stride = slotBytes ia.buffer j ia.stride := by
      rw [hia2]
      show slotBytes (writeBytes ia.buffer (h * ia.stride)
        (List.replicate ia.stride 0)) j ia.stride = slotBytes ia.buffer j ia.stride
      rcases Nat.lt_or_ge j h with hlt | hge
      · apply slotBytes_writeBytes_above
        · have h3 : (j + 1) * ia.stride ≤ h * ia.stride := Nat.mul_le_mul_right _ hlt
          rw [Nat.add_mul, Nat.one_mul] at h3
          omega
        · omega
      · have hgt : h < j := by omega
        apply slotBytes_writeBytes_below
        · have h3 : (h + 1) * ia.stride ≤ j * ia.stride := Nat.mul_le_mul_right _ hgt
          rw [Nat.add_mul, Nat.one_mul] at h3
          simp only [List.length_replicate]
          omega
        · omega
    rw [hpres]
    exact hfull2 j hj
  have hfind : findEmptySlot ia2.buffer ia2.stride (indexarray_capacity ia2)
      ia2.next_slot = some h := by
    rw [hcap2]
    apply findEmptySlot_unique _ _ _ _ _ hh
    · rw [show ia2.stride = ia.stride from rfl, hslot_h]
      exact is_slot_empty_replicate _
    · intro j hj hne
      exact hslot_other j hj hne
  rw [indexarray_add_found ia2 value junk h hfind]

/-- C6 counterexample: container of capacity 2 holding one value at slot 0
(hint = 1).  Removing occupied handle 0 and adding once returns handle 1, not
0: the circular scan starts at the hint and finds slot 1 empty first. -/
theorem C6_counterexample :
    indexarray_new 2 1 = some ⟨[0, 0], 1, 0, true⟩ ∧
    (indexarray_add ⟨[0, 0], 1, 0, true⟩ [1] (fun _ => 0)).handle = 0 ∧
    (indexarray_add ⟨[0, 0], 1, 0, true⟩ [1] (fun _ => 0)).state
      = ⟨[1, 0], 1, 1, true⟩ ∧
    indexarray_is_empty_slot ⟨[1, 0], 1, 1, true⟩ 0 = false ∧
    indexarray_remove_at ⟨[1, 0], 1, 1, true⟩ 0 = some ⟨[0, 0], 1, 1, true⟩ ∧
    (indexarray_add ⟨[0, 0], 1, 1, true⟩ [2] (fun _ => 0)).handle = 1 ∧
    (indexarray_add ⟨[0, 0], 1, 1, true⟩ [2] (fun _ => 0)).handle ≠ (0 : Int) := by
  refine ⟨by decide, by decide, by decide, by decide, by decide, by decide, by decide⟩

/-- C6 witness: instantiation of `C6_slot_reuse_full` on a full 2-slot
container, removing and re-adding at handle 1. -/
theorem C6_witness :
    (∀ j < indexarray_capacity ⟨[1, 2], 1, 0, true⟩,
      indexarray_is_empty_slot ⟨[1, 2], 1, 0, true⟩ j = false) ∧
    1 < indexarray_capacity ⟨[1, 2], 1, 0, true⟩ ∧
    (∃ ia2, indexarray_remove_at ⟨[1, 2], 1, 0, true⟩ 1 = some ia2 ∧
      (indexarray_add ia2 [9] (fun _ => 0)).handle = (1 : Int)) :=
  ⟨by decide, by decide,
    C6_slot_reuse_full ⟨[1, 2], 1, 0, true⟩ 1 [9] (fun _ => 0) (by decide)
      (by decide)⟩

/-! ### C7: remove_at -/

/-- C7: `remove_at` fails exactly for out-of-range handles; for in-range
handles it succeeds unconditionally (also on already-empty slots), zero-fills
the slot, leaves the hint untouched, and afterwards the slot reads as empty
and `get_at` fails. -/
theorem C7_remove_at_spec (ia : IndexArray) (h : Nat) :
    (indexarray_remove_at ia h = none ↔ indexarray_capacity ia ≤ h) ∧
    (h < indexarray_capacity ia →
      ∃ ia2, indexarray_remove_at ia h = some ia2 ∧
        ia2.next_slot = ia.next_slot ∧
        slotBytes ia2.buffer h ia.stride = List.replicate ia.stride 0 ∧
        indexarray_is_empty_slot ia2 h = true ∧
        indexarray_get_at ia2 h = none) := by
  constructor
  · constructor
    · intro hnone
      by_contra hlt
      push_neg at hlt
      rw [indexarray_remove_at, if_neg (by omega)] at hnone
      exact absurd hnone (Option.some_ne_none _)
    · intro hge
      rw [indexarray_remove_at, if_pos hge]
  · intro hlt
    have hcap : 0 < indexarray_capacity ia := by omega
    have hspos : 0 < ia.stride := stride_pos_of_capacity_pos ia hcap
    have hhlen : h * ia.stride + ia.stride ≤ ia.buffer.length := by
      have h1 : (h + 1) * ia.stride ≤ indexarray_capacity ia * ia.stride :=
        Nat.mul_le_mul_right _ hlt
      have h2 : indexarray_capacity ia * ia.stride ≤ ia.buffer.length :=
        Nat.div_mul_le_self _ _
      rw [Nat.add_mul, Nat.one_mul] at h1
      omega
    have hslot : slotBytes (zero_slot ia.buffer h ia.stride) h ia.stride
        = List.replicate ia.stride 0 := by
      show slotBytes (writeBytes ia.buffer (h * ia.stride)
        (List.replicate ia.stride 0)) h ia.stride = List.replicate ia.stride 0
      exact slotBytes_writeBytes_same _ _ _ _ (List.length_replicate _ _) hhlen
    have hlen2 : (zero_slot ia.buffer h ia.stride).length = ia.buffer.length := by
      show (writeBytes ia.buffer (h * ia.stride)
        (List.replicate ia.stride 0)).length = ia.buffer.length
      exact writeBytes_length _ _ _ (by simp only [List.length_replicate]; omega)
    have hcap2 : indexarray_capacity
        { ia with buffer := zero_slot ia.buffer h ia.stride }
        = indexarray_capacity ia :=
      capacity_congr _ ia hlen2 rfl
    have hemp : indexarray_is_empty_slot
        { ia with buffer := zero_slot ia.buffer h ia.stride } h = true := by
      rw [indexarray_is_empty_slot, if_neg (by rw [hcap2]; omega)]
      show is_slot_empty (slotBytes (zero_slot ia.buffer h ia.stride) h ia.stride)
        = true
      rw [hslot]
      exact is_slot_empty_replicate _
    have hget : indexarray_get_at
        { ia with buffer := zero_slot ia.buffer h ia.stride } h = none := by
      apply indexarray_get_at_none_of_empty
      show is_slot_empty (slotBytes (zero_slot ia.buffer h ia.stride) h ia.stride)
        = true
      rw [hslot]
      exact is_slot_empty_replicate _
    refine ⟨{ ia with buffer := zero_slot ia.buffer h ia.stride }, ?_, rfl,
      hslot, hemp, hget⟩
    rw [indexarray_remove_at, if_neg (by omega)]

/-- C7 witness: instantiation of `C7_remove_at_spec` at a 1-slot container
holding `[5]`, removing handle 0, plus the failure direction at handle 3. -/
theorem C7_witness :
    (indexarray_remove_at ⟨[5], 1, 0, true⟩ 3 = none ↔
      indexarray_capacity ⟨[5], 1, 0, true⟩ ≤ 3) ∧
    0 < indexarray_capacity ⟨[5], 1, 0, true⟩ ∧
    (∃ ia2, indexarray_remove_at ⟨[5], 1, 0, true⟩ 0 = some ia2 ∧
      ia2.next_slot = (⟨[5], 1, 0, true⟩ : IndexArray).next_slot ∧
      slotBytes ia2.buffer 0 (⟨[5], 1, 0, true⟩ : IndexArray).stride
        = List.replicate (⟨[5], 1, 0, true⟩ : IndexArray).stride 0 ∧
      indexarray_is_empty_slot ia2 0 = true ∧
      indexarray_get_at ia2 0 = none) :=
  ⟨(C7_remove_at_spec ⟨[5], 1, 0, true⟩ 3).1, by decide,
    (C7_remove_at_spec ⟨[5], 1, 0, true⟩ 0).2 (by decide)⟩

/-! ### C9: null-container guards -/

/-- C9: every accessor invoked with an absent container returns its neutral
failure value: `add` returns -1 (and no state change), `get_at` and
`remove_at` return the error status, `capacity` and `stride` return 0, and
`is_empty_slot` returns true. -/
theorem C9_null_guards (idx : Nat) (v : Option Bytes) (junk : Nat → Nat) :
    (indexarray_add_checked none v junk).1 = -1 ∧
    (indexarray_add_checked none v junk).2 = none ∧
    indexarray_get_at_checked none idx = none ∧
    indexarray_remove_at_checked none idx = none ∧
    indexarray_capacity_checked none = 0 ∧
    indexarray_stride_checked none = 0 ∧
    indexarray_is_empty_slot_checked none idx = true := by
  refine ⟨?_, ?_, rfl, rfl, rfl, rfl, rfl⟩ <;> cases v <;> rfl

/-! ### C10: an all-zero payload is accepted but not retrievable -/

/-- C10: on a container with at least one empty slot, adding an all-zero
value returns a non-negative in-range handle, yet the slot still reads as
empty and `get_at` on the handle fails. -/
theorem C10_zero_value_add (ia : IndexArray) (value : Bytes) (junk : Nat → Nat)
    (hv : value.length = ia.stride)
    (hz : is_slot_empty value = true)
    (j0 : Nat) (hj0 : j0 < indexarray_capacity ia)
    (hj0e : indexarray_is_empty_slot ia j0 = true) :
    0 ≤ (indexarray_add ia value junk).handle ∧
    (indexarray_add ia value junk).handle.toNat < indexarray_capacity ia ∧
    indexarray_is_empty_slot (indexarray_add ia value junk).state
      (indexarray_add ia value junk).handle.toNat = true ∧
    indexarray_get_at (indexarray_add ia value junk).state
      (indexarray_add ia value junk).handle.toNat = none := by
  have hj0e2 : is_slot_empty (slotBytes ia.buffer j0 ia.stride) = true := by
    rwa [indexarray_is_empty_slot, if_neg (by omega)] at hj0e
  obtain ⟨m, hm⟩ := findEmptySlot_some_of_exists ia.buffer ia.stride
    (indexarray_capacity ia) ia.next_slot j0 hj0 hj0e2
  obtain ⟨hh, hstr, hlen, hslot, _, hmcap, _, _⟩ := add_found_spec ia value junk m hv hm
  have htn : (indexarray_add ia value junk).handle.toNat = m := by
    rw [hh]; rfl
  have hcapeq : indexarray_capacity (indexarray_add ia value junk).state
      = indexarray_capacity ia := capacity_congr _ ia hlen hstr
  refine ⟨by rw [hh]; exact Int.ofNat_zero_le m, by rw [htn]; exact hmcap, ?_, ?_⟩
  · rw [htn, indexarray_is_empty_slot, if_neg (by rw [hcapeq]; omega)]
    rw [hstr, hslot]
    exact hz
  · rw [htn]
    apply indexarray_get_at_none_of_empty
    rw [hstr, hslot]
    exact hz

/-- C10 witness: instantiation of `C10_zero_value_add` on a 2-slot container
with slot 1 empty and the all-zero 1-byte value. -/
theorem C10_witness :
    ([(0 : Nat)] : Bytes).length = (⟨[1, 0], 1, 0, true⟩ : IndexArray).stride ∧
    is_slot_empty [(0 : Nat)] = true ∧
    1 < indexarray_capacity ⟨[1, 0], 1, 0, true⟩ ∧
    indexarray_is_empty_slot ⟨[1, 0], 1, 0, true⟩ 1 = true ∧
    (0 ≤ (indexarray_add ⟨[1, 0], 1, 0, true⟩ [0] (fun _ => 0)).handle ∧
     (indexarray_add ⟨[1, 0], 1, 0, true⟩ [0] (fun _ => 0)).handle.toNat
       < indexarray_capacity ⟨[1, 0], 1, 0, true⟩ ∧
     indexarray_is_empty_slot (indexarray_add ⟨[1, 0], 1, 0, true⟩ [0]
       (fun _ => 0)).state
       (indexarray_add ⟨[1, 0], 1, 0, true⟩ [0] (fun _ => 0)).handle.toNat = true ∧
     indexarray_get_at (indexarray_add ⟨[1, 0], 1, 0, true⟩ [0] (fun _ => 0)).state
       (indexarray_add ⟨[1, 0], 1, 0, true⟩ [0] (fun _ => 0)).handle.toNat = none) :=
  ⟨by decide, by decide, by decide, by decide,
    C10_zero_value_add ⟨[1, 0], 1, 0, true⟩ [0] (fun _ => 0) (by decide) (by decide)
      1 (by decide) (by decide)⟩

/-! ### C8: capacity monotonicity -/

theorem add_found_capacity (ia : IndexArray) (value : Bytes) (junk : Nat → Nat)
    (m : Nat)
    (hfind : findEmptySlot ia.buffer ia.stride (indexarray_capacity ia) ia.next_slot
      = some m) :
    indexarray_capacity (indexarray_add ia value junk).state
      = indexarray_capacity ia := by
  obtain ⟨hmcap, _⟩ := findEmptySlot_some_facts _ _ _ _ _ hfind
  have hmlen : m * ia.stride + ia.stride ≤ ia.buffer.length := by
    have h1 : (m + 1) * ia.stride ≤ indexarray_capacity ia * ia.stride :=
      Nat.mul_le_mul_right _ hmcap
    have h2 : indexarray_capacity ia * ia.stride ≤ ia.buffer.length :=
      Nat.div_mul_le_self _ _
    rw [Nat.add_mul, Nat.one_mul] at h1
    omega
  have h3 : (value.take ia.stride).length ≤ ia.stride := by
    rw [List.length_take]
    omega
  rw [indexarray_add_found ia value junk m hfind, capacity_set_buffer]
  rw [writeBytes_length _ _ _ (by omega)]
  rfl

theorem add_grow_capacity (ia : IndexArray) (value : Bytes) (junk : Nat → Nat)
    (hs : 0 < ia.stride)
    (hfind : findEmptySlot ia.buffer ia.stride (indexarray_capacity ia) ia.next_slot
      = none) :
    indexarray_capacity (indexarray_add ia value junk).state
      = if indexarray_capacity ia = 0 then 8 else indexarray_capacity ia * 2 := by
  set n := if indexarray_capacity ia = 0 then 8 else indexarray_capacity ia * 2
    with hn
  have hn2 : 2 ≤ n := by
    rw [hn]
    split <;> omega
  have hlen : (collection_grow ia.buffer ia.stride junk).newBuf.length
      = ia.stride * n := by
    rw [hn]
    exact grow_newBuf_length ia.buffer ia.stride junk
  have hLdiv : (collection_grow ia.buffer ia.stride junk).newBuf.length / ia.stride
      = n := by
    rw [hlen, Nat.mul_div_cancel_left _ hs]
  have h1 : n / 2 * ia.stride + n / 2 * ia.stride ≤ ia.stride * n := by
    have hx : (n / 2 + n / 2) * ia.stride ≤ n * ia.stride :=
      Nat.mul_le_mul_right _ (by omega)
    rw [Nat.add_mul] at hx
    rw [Nat.mul_comm ia.stride n]
    exact hx
  have h2 : n / 2 * ia.stride + ia.stride ≤ ia.stride * n := by
    have hx : (n / 2 + 1) * ia.stride ≤ n * ia.stride :=
      Nat.mul_le_mul_right _ (by omega)
    rw [Nat.add_mul, Nat.one_mul] at hx
    rw [Nat.mul_comm ia.stride n]
    exact hx
  have hlen3 : (writeBytes (collection_grow ia.buffer ia.stride junk).newBuf
      (n / 2 * ia.stride) (List.replicate (n / 2 * ia.stride) 0)).length
      = ia.stride * n := by
    rw [writeBytes_length]
    · exact hlen
    · rw [List.length_replicate, hlen]
      exact h1
  have hlen4 : (writeBytes (writeBytes (collection_grow ia.buffer ia.stride junk).newBuf
      (n / 2 * ia.stride) (List.replicate (n / 2 * ia.stride) 0))
      (n / 2 * ia.stride) (value.take ia.stride)).length = ia.stride * n := by
    rw [writeBytes_length]
    · exact hlen3
    · have h3 : (value.take ia.stride).length ≤ ia.stride := by
        rw [List.length_take]
        omega
      rw [hlen3]
      omega
  rw [indexarray_add_grow ia value junk hfind, capacity_set_buffer, hLdiv, hlen4,
    Nat.mul_div_cancel_left _ hs]

theorem applyOp_stride (ia : IndexArray) (op : IAOp) :
    (applyOp ia op).stride = ia.stride := by
  cases op with
  | add v junk =>
    show (indexarray_add ia v junk).state.stride = ia.stride
    cases hfind : findEmptySlot ia.buffer ia.stride (indexarray_capacity ia)
        ia.next_slot with
    | some m => rw [indexarray_add_found ia v junk m hfind]
    | none => rw [indexarray_add_grow ia v junk hfind]
  | removeAt i =>
    by_cases hi : indexarray_capacity ia ≤ i
    · show (match indexarray_remove_at ia i with
        | some ia2 => ia2
        | none => ia).stride = ia.stride
      rw [indexarray_remove_at, if_pos hi]
    · show (match indexarray_remove_at ia i with
        | some ia2 => ia2
        | none => ia).stride = ia.stride
      rw [indexarray_remove_at, if_neg hi]
  | clear => rfl
  | getAt _ => rfl
  | isEmptySlot _ => rfl

theorem applyOp_capacity_spec (ia : IndexArray) (op : IAOp) (hs : 0 < ia.stride) :
    indexarray_capacity ia ≤ indexarray_capacity (applyOp ia op) ∧
    (indexarray_capacity ia < indexarray_capacity (applyOp ia op)
      ↔ isGrowingAdd ia op) := by
  cases op with
  | add v junk =>
    show indexarray_capacity ia ≤ indexarray_capacity (indexarray_add ia v junk).state
      ∧ (indexarray_capacity ia < indexarray_capacity (indexarray_add ia v junk).state
        ↔ ∀ j < indexarray_capacity ia, indexarray_is_empty_slot ia j = false)
    cases hfind : findEmptySlot ia.buffer ia.stride (indexarray_capacity ia)
        ia.next_slot with
    | some m =>
      rw [add_found_capacity ia v junk m hfind]
      obtain ⟨hmcap, hemp⟩ := findEmptySlot_some_facts _ _ _ _ _ hfind
      refine ⟨le_refl _, ?_⟩
      simp only [lt_self_iff_false, false_iff]
      intro hfull
      have hx := hfull m hmcap
      rw [indexarray_is_empty_slot, if_neg (by omega)] at hx
      rw [hx] at hemp
      exact absurd hemp (by simp)
    | none =>
      rw [add_grow_capacity ia v junk hs hfind]
      have hfull := full_of_findEmptySlot_none _ _ _ _ hfind
      have hfull2 : ∀ j < indexarray_capacity ia,
          indexarray_is_empty_slot ia j = false := by
        intro j hj
        rw [indexarray_is_empty_slot, if_neg (by omega)]
        exact hfull j hj
      constructor
      · split <;> omega
      · constructor
        · intro _
          exact hfull2
        · intro _
          split <;> omega
  | removeAt i =>
    have hcapeq : indexarray_capacity (applyOp ia (IAOp.removeAt i))
        = indexarray_capacity ia := by
      by_cases hi : indexarray_capacity ia ≤ i
      · show indexarray_capacity (match indexarray_remove_at ia i with
          | some ia2 => ia2
          | none => ia) = indexarray_capacity ia
        rw [indexarray_remove_at, if_pos hi]
      · push_neg at hi
        have hspos : 0 < ia.stride := stride_pos_of_capacity_pos ia (by omega)
        have hhlen : i * ia.stride + ia.stride ≤ ia.buffer.length := by
          have ha : (i + 1) * ia.stride ≤ indexarray_capacity ia * ia.stride :=
            Nat.mul_le_mul_right _ hi
          have hb : indexarray_capacity ia * ia.stride ≤ ia.buffer.length :=
            Nat.div_mul_le_self _ _
          rw [Nat.add_mul, Nat.one_mul] at ha
          omega
        show indexarray_capacity (match indexarray_remove_at ia i with
          | some ia2 => ia2
          | none => ia) = indexarray_capacity ia
        rw [indexarray_remove_at, if_neg (by omega)]
        show indexarray_capacity { ia with buffer := zero_slot ia.buffer i ia.stride }
          = indexarray_capacity ia
        refine capacity_congr _ ia ?_ ?_
        · show (writeBytes ia.buffer (i * ia.stride)
            (List.replicate ia.stride 0)).length = ia.buffer.length
          exact writeBytes_length _ _ _ (by simp only [List.length_replicate]; omega)
        · rfl
    rw [hcapeq]
    exact ⟨le_refl _, by simp [isGrowingAdd]⟩
  | clear =>
    have hcapeq : indexarray_capacity (applyOp ia IAOp.clear)
        = indexarray_capacity ia := by
      have hd : indexarray_capacity ia * ia.stride ≤ ia.buffer.length :=
        Nat.div_mul_le_self _ _
      show indexarray_capacity (indexarray_clear ia) = indexarray_capacity ia
      refine capacity_congr _ ia ?_ ?_
      · show (writeBytes ia.buffer 0
          (List.replicate (indexarray_capacity ia * ia.stride) 0)).length
          = ia.buffer.length
        exact writeBytes_length _ _ _ (by simp only [List.length_replicate]; omega)
      · rfl
    rw [hcapeq]
    exact ⟨le_refl _, by simp [isGrowingAdd]⟩
  | getAt i =>
    exact ⟨le_refl _, by simp [applyOp, isGrowingAdd]⟩
  | isEmptySlot i =>
    exact ⟨le_refl _, by simp [applyOp, isGrowingAdd]⟩

theorem foldl_capacity_le (ops : List IAOp) :
    ∀ ia : IndexArray, 0 < ia.stride →
      indexarray_capacity ia ≤ indexarray_capacity (ops.foldl applyOp ia) := by
  induction ops with
  | nil => intro ia _; exact le_refl _
  | cons op rest ih =>
    intro ia hs
    have h1 := (applyOp_capacity_spec ia op hs).1
    have h2 := ih (applyOp ia op) (by rw [applyOp_stride]; exact hs)
    simpa using le_trans h1 h2

/-- C8: over any operation, capacity never decreases, and it strictly
increases exactly when the operation is an `add` issued onto a fully occupied
container; consequently capacity is non-decreasing along any operation
sequence. -/
theorem C8_capacity_monotone (ia : IndexArray) (op : IAOp) (ops : List IAOp)
    (hs : 0 < ia.stride) :
    (indexarray_capacity ia ≤ indexarray_capacity (applyOp ia op) ∧
     (indexarray_capacity ia < indexarray_capacity (applyOp ia op)
       ↔ isGrowingAdd ia op)) ∧
    indexarray_capacity ia ≤ indexarray_capacity (ops.foldl applyOp ia) :=
  ⟨applyOp_capacity_spec ia op hs, foldl_capacity_le ops ia hs⟩

/-- C8 witness: instantiation of `C8_capacity_monotone` at a full 1-slot
container with a growing add as the single step and a remove/add sequence. -/
theorem C8_witness :
    0 < (⟨[1], 1, 0, true⟩ : IndexArray).stride ∧
    ((indexarray_capacity ⟨[1], 1, 0, true⟩
        ≤ indexarray_capacity (applyOp ⟨[1], 1, 0, true⟩ (IAOp.add [2] (fun _ => 0))) ∧
      (indexarray_capacity ⟨[1], 1, 0, true⟩
          < indexarray_capacity (applyOp ⟨[1], 1, 0, true⟩ (IAOp.add [2] (fun _ => 0)))
        ↔ isGrowingAdd ⟨[1], 1, 0, true⟩ (IAOp.add [2] (fun _ => 0)))) ∧
     indexarray_capacity ⟨[1], 1, 0, true⟩
       ≤ indexarray_capacity
           ([IAOp.removeAt 0, IAOp.add [3] (fun _ => 0)].foldl applyOp
             ⟨[1], 1, 0, true⟩)) :=
  ⟨by decide,
    C8_capacity_monotone ⟨[1], 1, 0, true⟩ (IAOp.add [2] (fun _ => 0))
      [IAOp.removeAt 0, IAOp.add [3] (fun _ => 0)] (by decide)⟩

/-! ### C5: sparse iterator correctness -/

theorem sparseNextScan_none_spec (ia : IndexArray) :
    ∀ fuel j, sparseNextScan ia j fuel = none →
      ∀ k, j ≤ k → k < j + fuel → indexarray_is_empty_slot ia k = true := by
  intro fuel
  induction fuel with
  | zero => intro j _ k hk1 hk2; omega
  | succ f ih =>
    intro j hnone k hk1 hk2
    simp only [sparseNextScan] at hnone
    by_cases hj : indexarray_is_empty_slot ia j = true
    · simp only [hj, if_true] at hnone
      rcases Nat.eq_or_lt_of_le hk1 with rfl | hlt
      · exact hj
      · exact ih (j + 1) hnone k hlt (by omega)
    · simp only [hj, if_false] at hnone
      exact absurd hnone (Option.some_ne_none _)

theorem sparseNextScan_some_spec (ia : IndexArray) :
    ∀ fuel j m, sparseNextScan ia j fuel = some m →
      j ≤ m ∧ m < j + fuel ∧ indexarray_is_empty_slot ia m = false ∧
      ∀ k, j ≤ k → k < m → indexarray_is_empty_slot ia k = true := by
  intro fuel
  induction fuel with
  | zero => intro j m h; simp [sparseNextScan] at h
  | succ f ih =>
    intro j m hsome
    simp only [sparseNextScan] at hsome
    by_cases hj : indexarray_is_empty_slot ia j = true
    · rw [if_pos hj] at hsome
      obtain ⟨h1, h2, h3, h4⟩ := ih (j + 1) m hsome
      refine ⟨by omega, by omega, h3, ?_⟩
      intro k hk1 hk2
      rcases Nat.eq_or_lt_of_le hk1 with rfl | hlt
      · exact hj
      · exact h4 k hlt hk2
    · rw [if_neg hj, Option.some_inj] at hsome
      subst hsome
      exact ⟨le_refl _, by omega, Bool.eq_false_iff.mpr hj, by omega⟩

theorem sparse_iter_next_pos_eq (ia : IndexArray) (m cap : Nat) :
    sparse_iter_next ia ⟨m, cap, true⟩ = sparse_iter_next ia ⟨m + 1, cap, false⟩ :=
  rfl

theorem runIter_pos_eq (ia : IndexArray) (m cap : Nat) (f : Nat) :
    runIter ia ⟨m, cap, true⟩ (f + 1) = runIter ia ⟨m + 1, cap, false⟩ (f + 1) := by
  simp only [runIter, sparse_iter_next_pos_eq]

theorem runIter_unpos_spec (ia : IndexArray) (cap : Nat) :
    ∀ fuel j, cap - j < fuel →
      runIter ia ⟨j, cap, false⟩ fuel =
        ((List.range' j (cap - j)).filter
          (fun k => !(indexarray_is_empty_slot ia k)),
         ⟨max j cap, cap, false⟩) := by
  intro fuel
  induction fuel with
  | zero => intro j h; omega
  | succ f ih =>
    intro j hj
    cases hscan : sparseNextScan ia j (cap - j) with
    | some m =>
      obtain ⟨hm1, hm2, hm3, hm4⟩ := sparseNextScan_some_spec ia (cap - j) j m hscan
      have hjcap : j < cap := by
        by_contra hc
        push_neg at hc
        have : cap - j = 0 := by omega
        rw [this] at hscan
        simp [sparseNextScan] at hscan
      have hmcap : m < cap := by omega
      have hnext : sparse_iter_next ia ⟨j, cap, false⟩ = (true, ⟨m, cap, true⟩) := by
        simp only [sparse_iter_next, Bool.false_eq_true, if_false, hscan]
      have hfpos : cap - (m + 1) < f := by omega
      have hstep : runIter ia ⟨j, cap, false⟩ (f + 1)
          = (m :: (runIter ia ⟨m, cap, true⟩ f).1,
             (runIter ia ⟨m, cap, true⟩ f).2) := by
        simp only [runIter, hnext]
        rfl
      obtain ⟨f2, rfl⟩ : ∃ f2, f = f2 + 1 := ⟨f - 1, by omega⟩
      rw [hstep, runIter_pos_eq ia m cap f2, ih (m + 1) hfpos]
      have hmax1 : max (m + 1) cap = cap := by omega
      have hmax2 : max j cap = cap := by omega
      rw [hmax1, hmax2]
      have hsplit : List.range' j (cap - j)
          = List.range' j (m - j) ++ List.range' m (cap - m) := by
        have hx := List.range'_append j (m - j) (cap - m) 1
        rw [Nat.one_mul] at hx
        rw [show j + (m - j) = m from by omega] at hx
        rw [show cap - m + (m - j) = cap - j from by omega] at hx
        exact hx.symm
      have hnil : (List.range' j (m - j)).filter
          (fun k => !(indexarray_is_empty_slot ia k)) = [] := by
        rw [List.filter_eq_nil_iff]
        intro a ha
        rw [List.mem_range'_1] at ha
        have := hm4 a ha.1 (by omega)
        simp [this]
      have hcons : List.range' m (cap - m)
          = m :: List.range' (m + 1) (cap - m - 1) := by
        rw [show cap - m = (cap - m - 1) + 1 from by omega]
        exact List.range'_succ m (cap - m - 1) 1
      rw [hsplit, List.filter_append, hnil, hcons, List.nil_append]
      rw [List.filter_cons_of_pos (by simp [hm3])]
      rw [show cap - m - 1 = cap - (m + 1) from by omega]
    | none =>
      have hnext : sparse_iter_next ia ⟨j, cap, false⟩
          = (false, ⟨max j cap, cap, false⟩) := by
        simp only [sparse_iter_next, Bool.false_eq_true, if_false, hscan]
      have hnil : (List.range' j (cap - j)).filter
          (fun k => !(indexarray_is_empty_slot ia k)) = [] := by
        rw [List.filter_eq_nil_iff]
        intro a ha
        rw [List.mem_range'_1] at ha
        have := sparseNextScan_none_spec ia (cap - j) j hscan a ha.1 ha.2
        simp [this]
      simp only [runIter, hnext, hnil]

/-- C5: a freshly created sparse iterator, driven by repeated `next`, visits
exactly the currently occupied slot indices in strictly ascending order (the
ascending filter of the range below capacity), each exactly once; after that
`next` returns false; and after `reset`, re-iteration over the unmutated
container reproduces the same index sequence. -/
theorem C5_iterator_correct (ia : IndexArray) :
    (runIter ia (sparse_iterator_new ia) (indexarray_capacity ia + 1)).1
      = occupiedIndices ia ∧
    (sparse_iter_next ia
      (runIter ia (sparse_iterator_new ia) (indexarray_capacity ia + 1)).2).1
      = false ∧
    (runIter ia
      (sparse_iter_reset
        (runIter ia (sparse_iterator_new ia) (indexarray_capacity ia + 1)).2)
      (indexarray_capacity ia + 1)).1 = occupiedIndices ia := by
  have hnew : sparse_iterator_new ia = ⟨0, indexarray_capacity ia, false⟩ := rfl
  have hmain := runIter_unpos_spec ia (indexarray_capacity ia)
    (indexarray_capacity ia + 1) 0 (by omega)
  have hocc : (List.range' 0 (indexarray_capacity ia - 0)).filter
      (fun k => !(indexarray_is_empty_slot ia k)) = occupiedIndices ia := by
    rw [occupiedIndices, List.range_eq_range', Nat.sub_zero]
  have hmax : max 0 (indexarray_capacity ia) = indexarray_capacity ia := by omega
  refine ⟨?_, ?_, ?_⟩
  · rw [hnew, hmain, ← hocc]
  · rw [hnew, hmain, hmax]
    have hsub : indexarray_capacity ia - indexarray_capacity ia = 0 := by omega
    simp only [sparse_iter_next, Bool.false_eq_true, if_false, hsub, sparseNextScan]
  · rw [hnew, hmain, hmax]
    have hreset : sparse_iter_reset
        ⟨indexarray_capacity ia, indexarray_capacity ia, false⟩
        = ⟨0, indexarray_capacity ia, false⟩ := rfl
    rw [hreset, hmain, ← hocc]
